import Mathlib

/-!
Verification of the initial-mass-function module (`imf.py`) of the starmixer
repository.  Masses and densities are modelled as real numbers, Python float
`**` as `Real.rpow`, and `scipy.integrate.quad` as the exact integral (for
power-law segments the closed-form antiderivative `powIntegral`, for the
log-normal part the Mathlib interval integral).  Python exceptions are
modelled by `Except IMFError`; a Python expression `1/total` with `total = 0`
raises `ZeroDivisionError`, modelled by the `divisionByZero` constructor.
-/

open MeasureTheory intervalIntegral Real List

/-- Errors raised by the constructors and `__call__` methods of `imf.py`.
The spec names the first five; `divisionByZero` models Python
`ZeroDivisionError` from `1/integrated`, `stopIteration` models the
exhausted `next(...)` generator in `BrokenPowerLaw.__call__`, and
`noneReturned` models the (unreachable) fall-through of
`ChabrierIMF.__call__` that would return `None`. -/
inductive IMFError where
  | shapeMismatch
  | nonMonotonicBounds
  | invalidDomain
  | outOfDomain
  | wrongSegmentCount
  | divisionByZero
  | stopIteration
  | noneReturned
  deriving DecidableEq, Repr

/-- Python list indexing `xs[i]` for `-len xs ≤ i < len xs`: a negative index
counts from the end (`xs[-1]` is the last element).  The out-of-range
`IndexError` cases are unreachable at every use site below. -/
def pyGet (xs : List ℝ) (i : ℤ) : ℝ :=
  if i < 0 then xs.getD (xs.length - (-i).toNat) 0 else xs.getD i.toNat 0

/-- Models `next(i for i, x in enumerate(bounds) if x >= m)` from
`BrokenPowerLaw.__call__` (line 43 of `imf.py`): index of the first element
that is `≥ m`, or `none` when the generator is exhausted. -/
noncomputable def firstGE (m : ℝ) : List ℝ → Option ℕ
  | [] => none
  | x :: xs => if m ≤ x then some 0 else (firstGE m xs).map (· + 1)

/-- Exact value of `quad(lambda x: x**g, a=l, b=u)[0]`: the closed-form
integral of `x ↦ x ^ g` over `[l, u]`. -/
noncomputable def powIntegral (g l u : ℝ) : ℝ :=
  if g = -1 then Real.log u - Real.log l else (u ^ (g + 1) - l ^ (g + 1)) / (g + 1)

/-- The continuity coefficients of `BrokenPowerLaw.__init__` (lines 29-33 of
`imf.py`): `cs[0] = 1` and, for each interior bound `b = bounds[i+1]`,
`cs[i+1] = cs[i]*b**gammas[i] / b**gammas[i+1]`. -/
noncomputable def csFun (gammas bounds : List ℝ) : ℕ → ℝ
  | 0 => 1
  | i + 1 =>
      csFun gammas bounds i * (bounds.getD (i + 1) 0) ^ (gammas.getD i 0) /
        (bounds.getD (i + 1) 0) ^ (gammas.getD (i + 1) 0)

/-- The list `self.cs` stored by `BrokenPowerLaw.__init__`. -/
noncomputable def csList (gammas bounds : List ℝ) : List ℝ :=
  (List.range gammas.length).map (csFun gammas bounds)

/-- The accumulated `integrated` of `BrokenPowerLaw.__init__` (lines 35-37):
the sum over segments of the coefficient-weighted segment integrals. -/
noncomputable def totalOf (gammas bounds : List ℝ) : ℝ :=
  ∑ i in Finset.range gammas.length,
    (csList gammas bounds).getD i 0 *
      powIntegral (gammas.getD i 0) (bounds.getD i 0) (bounds.getD (i + 1) 0)

structure BrokenPowerLaw where
  gammas : List ℝ
  bounds : List ℝ
  cs : List ℝ
  k : ℝ

/-- The record produced by a successful `BrokenPowerLaw.__init__`. -/
noncomputable def buildBPL (gammas bounds : List ℝ) : BrokenPowerLaw :=
  ⟨gammas, bounds, csList gammas bounds, 1 / totalOf gammas bounds⟩

/-- `BrokenPowerLaw.__init__` (lines 18-38 of `imf.py`): shape check, then
the strictly-increasing-bounds check, then `self.k = 1/integrated` (which
raises `ZeroDivisionError` when `integrated` is zero). -/
noncomputable def mkBrokenPowerLaw (gammas bounds : List ℝ) :
    Except IMFError BrokenPowerLaw :=
  if (gammas.length : ℤ) ≠ (bounds.length : ℤ) - 1 then .error .shapeMismatch
  else if ¬ bounds.Chain' (· < ·) then .error .nonMonotonicBounds
  else if totalOf gammas bounds = 0 then .error .divisionByZero
  else .ok (buildBPL gammas bounds)

/-- `BrokenPowerLaw.__call__` (lines 40-44 of `imf.py`): domain guard on
`[bounds[0], bounds[-1]]`, segment search, then
`self.cs[coeff_idx]*m**self.gammas[coeff_idx] * self.k` with Python indexing
(so `coeff_idx = -1` selects the *last* entry). -/
noncomputable def BrokenPowerLaw.eval (M : BrokenPowerLaw) (m : ℝ) :
    Except IMFError ℝ :=
  if m < pyGet M.bounds 0 ∨ pyGet M.bounds (-1) < m then .error .outOfDomain
  else
    match firstGE m M.bounds with
    | none => .error .stopIteration
    | some idx =>
        .ok (pyGet M.cs ((idx : ℤ) - 1) * m ^ pyGet M.gammas ((idx : ℤ) - 1) * M.k)

/-- `PowerLaw.__init__` (lines 48-57 of `imf.py`): the `InvalidDomain` guard
`a <= 0 or b < a`, then delegation to `BrokenPowerLaw.__init__`. -/
noncomputable def mkPowerLaw (gamma a b : ℝ) : Except IMFError BrokenPowerLaw :=
  if a ≤ 0 ∨ b < a then .error .invalidDomain
  else mkBrokenPowerLaw [gamma] [a, b]

/-- `SalpeterIMF.__init__` (lines 83-91 of `imf.py`). -/
noncomputable def mkSalpeterIMF (a b : ℝ) : Except IMFError BrokenPowerLaw :=
  mkPowerLaw (-2.35) a b

/-- The default `gammas` argument of `KroupaIMF.__init__`. -/
def kroupaDefaultGammas : List ℝ := [-0.3, -1.3, -2.3, -2.3]

/-- `KroupaIMF.__init__` (lines 94-110 of `imf.py`).  The Python default for
`ub` is `np.inf`, which has no counterpart in this real-valued model, so `ub`
is an explicit parameter here. -/
noncomputable def mkKroupaIMF (gammas : List ℝ) (ub : ℝ) :
    Except IMFError BrokenPowerLaw :=
  if gammas.length ≠ 4 then .error .wrongSegmentCount
  else mkBrokenPowerLaw gammas [0.01, 0.08, 0.5, 1, ub]

structure LogNormal where
  pf : ℝ
  u : ℝ
  v : ℝ
  a : ℝ
  b : ℝ
  k : ℝ

/-- The local `integrated` of `LogNormal.__init__` (lines 73-74 of
`imf.py`): the integral over `[a, b]` of the integrand
`(1/x)*pf*exp(-1*(log(x)-log(u))**2/(2*v**2))` fed to `quad`. -/
noncomputable def lnIntegral (pf u v a b : ℝ) : ℝ :=
  ∫ x in a..b, (1 / x) * pf * Real.exp (-1 * (Real.log x - Real.log u) ^ 2 / (2 * v ^ 2))

/-- `LogNormal.__init__` (lines 61-75 of `imf.py`): stores the parameters and
`k = 1/integrated` (a zero integral raises `ZeroDivisionError`). -/
noncomputable def mkLogNormal (pf u v a b : ℝ) : Except IMFError LogNormal :=
  if lnIntegral pf u v a b = 0 then .error .divisionByZero
  else .ok ⟨pf, u, v, a, b, 1 / lnIntegral pf u v a b⟩

/-- `LogNormal.__call__` (lines 77-80 of `imf.py`). -/
noncomputable def LogNormal.eval (L : LogNormal) (m : ℝ) : Except IMFError ℝ :=
  if m < L.a ∨ L.b < m then .error .outOfDomain
  else
    .ok (L.k * L.pf * (1 / m) *
      Real.exp (-1 * (Real.log m - Real.log L.u) ^ 2 / (2 * L.v ^ 2)))

/-- Value returned by a call of one of the models, at call sites where the
source's call cannot raise (used to model Python code that feeds one model's
`__call__` into `quad` or into another model, always inside the domain). -/
def exVal (e : Except IMFError ℝ) : ℝ := e.toOption.getD 0

/-- Whether a call returned a value (no exception was raised). -/
def isOkE (e : Except IMFError ℝ) : Bool :=
  match e with
  | .ok _ => true
  | .error _ => false

structure ChabrierIMF where
  pf : ℝ
  u : ℝ
  v : ℝ
  ub : ℝ
  lognorm_part : LogNormal
  powerlaw_part : BrokenPowerLaw
  c : ℝ
  k : ℝ

/-- The join coefficient of `ChabrierIMF.__init__` (lines 132-134 of
`imf.py`): `left/right` where `left = self.lognorm_part(1)` and
`right = self.powerlaw_part(1)`. -/
noncomputable def chabrierJoin (ln : LogNormal) (pl : BrokenPowerLaw) : ℝ :=
  exVal (ln.eval 1) / exVal (pl.eval 1)

/-- The accumulated `integrated` of `ChabrierIMF.__init__` (lines 131 and
135 of `imf.py`): the integral of `self.lognorm_part` over `[0.01, 1]` plus
the integral of the join-coefficient-weighted `self.powerlaw_part` over
`[1, ub]`. -/
noncomputable def chabrierIntegrated (ub : ℝ) (ln : LogNormal) (pl : BrokenPowerLaw) : ℝ :=
  (∫ x in (0.01 : ℝ)..1, exVal (ln.eval x)) +
    ∫ x in (1 : ℝ)..ub, chabrierJoin ln pl * exVal (pl.eval x)

/-- The record produced by a successful `ChabrierIMF.__init__`. -/
noncomputable def buildChabrier (pf u v ub : ℝ) (ln : LogNormal) (pl : BrokenPowerLaw) :
    ChabrierIMF :=
  ⟨pf, u, v, ub, ln, pl, chabrierJoin ln pl, 1 / chabrierIntegrated ub ln pl⟩

/-- `ChabrierIMF.__init__` (lines 113-136 of `imf.py`): build the log-normal
part on `[0.01, 1]` and the Salpeter part on `[1, ub]` (either constructor's
exception propagates), integrate the log-normal part, set `c` to the ratio
of the two parts at mass `1`, add the integral of the `c`-weighted power-law
part, and set `k = 1/integrated` (raising `ZeroDivisionError` on a zero
total). -/
noncomputable def mkChabrierIMF (pf u v ub : ℝ) : Except IMFError ChabrierIMF :=
  match mkLogNormal pf u v 0.01 1 with
  | .error e => .error e
  | .ok ln =>
    match mkSalpeterIMF 1 ub with
    | .error e => .error e
    | .ok pl =>
      if chabrierIntegrated ub ln pl = 0 then .error .divisionByZero
      else .ok (buildChabrier pf u v ub ln pl)

/-- `ChabrierIMF.__call__` (lines 138-144 of `imf.py`): domain guard on
`[0.01, ub]`, then dispatch to the log-normal branch for `m <= 1` and to the
power-law branch for `m >= 1`; the final branch models the unreachable
fall-through (the Python method would return `None` there). -/
noncomputable def ChabrierIMF.eval (C : ChabrierIMF) (m : ℝ) : Except IMFError ℝ :=
  if m < 0.01 ∨ C.ub < m then .error .outOfDomain
  else if m ≤ 1 then .ok (C.k * exVal (C.lognorm_part.eval m))
  else if 1 ≤ m then .ok (C.k * C.c * exVal (C.powerlaw_part.eval m))
  else .error .noneReturned

/-- Concrete witness models used below: a Salpeter power law on `[1, 2]`, a
log-normal with `pf = u = v = 1` on `[0.01, 1]`, and the Chabrier model
built from them with `ub = 2`. -/
noncomputable def plW : BrokenPowerLaw := buildBPL [(-2.35 : ℝ)] [1, 2]

noncomputable def lnW : LogNormal := ⟨1, 1, 1, 0.01, 1, 1 / lnIntegral 1 1 1 0.01 1⟩

noncomputable def chabW : ChabrierIMF := buildChabrier 1 1 1 2 lnW plW

/-! ### Helper lemmas about the embedding -/

lemma pyGet_natCast (xs : List ℝ) (i : ℕ) : pyGet xs (i : ℤ) = xs.getD i 0 := by
  simp [pyGet]

lemma pyGet_neg_one (xs : List ℝ) : pyGet xs (-1) = xs.getD (xs.length - 1) 0 := by
  simp [pyGet]

lemma pyGet_zero (xs : List ℝ) : pyGet xs 0 = xs.getD 0 0 := by
  simp [pyGet]

lemma firstGE_eq_some (m : ℝ) (b : List ℝ) (n : ℕ) (hn : n < b.length)
    (hbefore : ∀ j, j < n → b.getD j 0 < m) (hat : m ≤ b.getD n 0) :
    firstGE m b = some n := by
  induction b generalizing n with
  | nil => simp at hn
  | cons x xs ih =>
    cases n with
    | zero =>
      simp only [List.getD_cons_zero] at hat
      simp [firstGE, hat]
    | succ k =>
      have hx : x < m := by simpa using hbefore 0 (Nat.succ_pos k)
      have hx2 : ¬ m ≤ x := not_le.mpr hx
      simp only [firstGE, hx2, if_false]
      rw [ih k (by simpa using hn)
        (fun j hj => by simpa using hbefore (j + 1) (by omega))
        (by simpa using hat)]
      rfl

lemma firstGE_exists (m : ℝ) (b : List ℝ)
    (h : ∃ j, j < b.length ∧ m ≤ b.getD j 0) : ∃ n, firstGE m b = some n := by
  induction b with
  | nil =>
    obtain ⟨j, hj, _⟩ := h
    simp at hj
  | cons x xs ih =>
    by_cases hx : m ≤ x
    · exact ⟨0, by simp [firstGE, hx]⟩
    · obtain ⟨j, hj, hmj⟩ := h
      cases j with
      | zero =>
        simp only [List.getD_cons_zero] at hmj
        exact absurd hmj hx
      | succ k =>
        obtain ⟨n, hn⟩ := ih ⟨k, by simpa using hj, by simpa using hmj⟩
        exact ⟨n + 1, by simp [firstGE, hx, hn]⟩

lemma chain'_lt_getD {b : List ℝ} (hb : b.Chain' (· < ·)) {i j : ℕ}
    (hij : i < j) (hj : j < b.length) : b.getD i 0 < b.getD j 0 := by
  rw [List.chain'_iff_pairwise] at hb
  rw [List.getD_eq_get _ _ (lt_trans hij hj), List.getD_eq_get _ _ hj]
  exact List.pairwise_iff_get.mp hb ⟨i, lt_trans hij hj⟩ ⟨j, hj⟩ hij

lemma chain'_le_getD {b : List ℝ} (hb : b.Chain' (· < ·)) {i j : ℕ}
    (hij : i ≤ j) (hj : j < b.length) : b.getD i 0 ≤ b.getD j 0 := by
  rcases eq_or_lt_of_le hij with rfl | hlt
  · exact le_rfl
  · exact le_of_lt (chain'_lt_getD hb hlt hj)

lemma totalOf_eq_zero_of_nil (g b : List ℝ) (h : g.length = 0) : totalOf g b = 0 := by
  simp [totalOf, h]

lemma mkBrokenPowerLaw_ok_iff (g b : List ℝ) (M : BrokenPowerLaw) :
    mkBrokenPowerLaw g b = .ok M ↔
      (g.length : ℤ) = (b.length : ℤ) - 1 ∧ b.Chain' (· < ·) ∧
        totalOf g b ≠ 0 ∧ M = buildBPL g b := by
  unfold mkBrokenPowerLaw
  by_cases h1 : (g.length : ℤ) ≠ (b.length : ℤ) - 1
  · rw [if_pos h1]
    exact ⟨fun h => Except.noConfusion h, fun h => absurd h.1 h1⟩
  · rw [if_neg h1]
    replace h1 := not_not.mp h1
    by_cases h2 : b.Chain' (· < ·)
    · rw [if_neg (not_not_intro h2)]
      by_cases h3 : totalOf g b = 0
      · rw [if_pos h3]
        exact ⟨fun h => Except.noConfusion h, fun h => absurd h3 h.2.2.1⟩
      · rw [if_neg h3]
        constructor
        · intro h
          injection h with h4
          exact ⟨h1, h2, h3, h4.symm⟩
        · rintro ⟨-, -, -, rfl⟩
          rfl
    · rw [if_pos h2]
      exact ⟨fun h => Except.noConfusion h, fun h => absurd h.2.1 h2⟩

lemma csList_getD (g b : List ℝ) {i : ℕ} (hi : i < g.length) :
    (csList g b).getD i 0 = csFun g b i := by
  unfold csList
  rw [List.getD_eq_get _ _ (by simpa using hi)]
  simp

lemma powIntegral_pos {g l u : ℝ} (hl : 0 < l) (hlu : l < u) :
    0 < powIntegral g l u := by
  unfold powIntegral
  split_ifs with h
  · have := Real.log_lt_log hl hlu
    linarith
  · have hg : g + 1 ≠ 0 := fun hg0 => h (by linarith)
    rcases lt_or_gt_of_ne hg with hneg | hpos
    · have := Real.rpow_lt_rpow_of_neg hl hlu hneg
      have hln : l ^ (g + 1) > 0 := Real.rpow_pos_of_pos hl _
      apply div_pos_of_neg_of_neg <;> linarith
    · have := Real.rpow_lt_rpow (le_of_lt hl) hlu hpos
      apply div_pos <;> linarith

lemma csFun_pos (g b : List ℝ) :
    ∀ i, (∀ j, 1 ≤ j → j ≤ i → 0 < b.getD j 0) → 0 < csFun g b i
  | 0, _ => one_pos
  | i + 1, h => by
    have hB : 0 < b.getD (i + 1) 0 := h (i + 1) (by omega) le_rfl
    have hprev := csFun_pos g b i (fun j hj hji => h j hj (by omega))
    unfold csFun
    exact div_pos (mul_pos hprev (Real.rpow_pos_of_pos hB _))
      (Real.rpow_pos_of_pos hB _)

lemma totalOf_pos {g b : List ℝ} (hlen : b.length = g.length + 1)
    (hchain : b.Chain' (· < ·)) (hpos : 0 < b.getD 0 0) (hne : g.length ≠ 0) :
    0 < totalOf g b := by
  unfold totalOf
  apply Finset.sum_pos
  · intro i hi
    rw [Finset.mem_range] at hi
    have hib : i + 1 < b.length := by omega
    have hbound : ∀ j, 1 ≤ j → j ≤ i → 0 < b.getD j 0 := fun j hj hji =>
      lt_of_lt_of_le hpos (chain'_le_getD hchain (Nat.zero_le j) (by omega))
    have hbi : 0 < b.getD i 0 :=
      lt_of_lt_of_le hpos (chain'_le_getD hchain (Nat.zero_le i) (by omega))
    have hstep : b.getD i 0 < b.getD (i + 1) 0 :=
      chain'_lt_getD hchain (Nat.lt_succ_self i) hib
    rw [csList_getD g b hi]
    exact mul_pos (csFun_pos g b i hbound) (powIntegral_pos hbi hstep)
  · exact Finset.nonempty_range_iff.mpr hne

lemma buildBPL_cs_length (g b : List ℝ) : (buildBPL g b).cs.length = g.length := by
  simp [buildBPL, csList]

lemma length_of_shape {g b : List ℝ} (h : (g.length : ℤ) = (b.length : ℤ) - 1) :
    b.length = g.length + 1 := by omega

/-- Generic evaluation lemma at the exact lower edge of the domain: the
segment search returns index `0`, so `coeff_idx = -1` and Python indexing
selects the last continuity coefficient and the last exponent. -/
lemma bpl_eval_lower_edge (g b : List ℝ) (M : BrokenPowerLaw)
    (hM : mkBrokenPowerLaw g b = .ok M) :
    M.eval (b.getD 0 0) =
      .ok ((csList g b).getD (g.length - 1) 0 *
        (b.getD 0 0) ^ (g.getD (g.length - 1) 0) * M.k) := by
  obtain ⟨hsh, hch, htot, rfl⟩ := (mkBrokenPowerLaw_ok_iff g b M).mp hM
  have hg : g.length ≠ 0 := fun h0 => htot (totalOf_eq_zero_of_nil g b h0)
  have hlen : b.length = g.length + 1 := length_of_shape hsh
  simp only [BrokenPowerLaw.eval, buildBPL]
  rw [pyGet_neg_one, pyGet_zero]
  have hlast : b.getD 0 0 ≤ b.getD (b.length - 1) 0 :=
    chain'_le_getD hch (Nat.zero_le _) (by omega)
  rw [if_neg (by push_neg; exact ⟨le_rfl, hlast⟩)]
  rw [firstGE_eq_some (b.getD 0 0) b 0 (by omega) (by omega) le_rfl]
  show Except.ok (pyGet (csList g b) ((0 : ℤ) - 1) * _ ^ pyGet g ((0 : ℤ) - 1) * _) = _
  rw [show ((0 : ℤ) - 1) = (-1 : ℤ) by norm_num]
  rw [pyGet_neg_one, pyGet_neg_one]
  rw [show (csList g b).length = g.length from by simp [csList]]

lemma bpl_eval_in_segment_aux (g b : List ℝ) (M : BrokenPowerLaw)
    (hM : mkBrokenPowerLaw g b = .ok M) (i : ℕ) (m : ℝ)
    (hi : i < g.length) (hlo : b.getD i 0 < m) (hhi : m ≤ b.getD (i + 1) 0) :
    M.eval m = .ok (M.cs.getD i 0 * m ^ M.gammas.getD i 0 * M.k) := by
  obtain ⟨hsh, hch, htot, rfl⟩ := (mkBrokenPowerLaw_ok_iff g b M).mp hM
  have hlen : b.length = g.length + 1 := length_of_shape hsh
  have hi1 : i + 1 < b.length := by omega
  simp only [BrokenPowerLaw.eval, buildBPL]
  rw [pyGet_neg_one, pyGet_zero]
  have hb0 : b.getD 0 0 ≤ b.getD i 0 := chain'_le_getD hch (Nat.zero_le i) (by omega)
  have hbl : b.getD (i + 1) 0 ≤ b.getD (b.length - 1) 0 :=
    chain'_le_getD hch (by omega) (by omega)
  rw [if_neg (by push_neg; exact ⟨le_trans hb0 (le_of_lt hlo), le_trans hhi hbl⟩)]
  have hbefore : ∀ j, j < i + 1 → b.getD j 0 < m := fun j hj =>
    lt_of_le_of_lt (chain'_le_getD hch (by omega) (by omega)) hlo
  rw [firstGE_eq_some m b (i + 1) hi1 hbefore hhi]
  show Except.ok (pyGet (csList g b) (((i : ℕ) + 1 : ℤ) - 1) * _ ^ pyGet g (((i : ℕ) + 1 : ℤ) - 1) * _) = _
  rw [show ((i : ℕ) + 1 : ℤ) - 1 = ((i : ℕ) : ℤ) by push_cast; ring]
  rw [pyGet_natCast, pyGet_natCast]

/-- Claim C1 (amended): for every successfully constructed model and every
mass strictly inside segment `i` in the tie-broken sense
`bounds[i] < m ≤ bounds[i+1]`, `evaluate(m)` returns
`c[i]*m**gammas[i]*k`.  (At `m = bounds[0]` the implementation instead
selects the last segment; see the counterexample and claim C4.) -/
theorem brokenPowerLaw_eval_in_segment (g b : List ℝ) (M : BrokenPowerLaw)
    (hM : mkBrokenPowerLaw g b = .ok M) (i : ℕ) (m : ℝ)
    (hi : i < g.length) (hlo : b.getD i 0 < m) (hhi : m ≤ b.getD (i + 1) 0) :
    M.eval m = .ok (M.cs.getD i 0 * m ^ M.gammas.getD i 0 * M.k) :=
  bpl_eval_in_segment_aux g b M hM i m hi hlo hhi

lemma chain124 : List.Chain' (· < ·) [(1:ℝ), 2, 4] := by
  norm_num [List.chain'_cons]

lemma mkBPL_014 :
    mkBrokenPowerLaw [(0:ℝ), 1] [(1:ℝ), 2, 4] = .ok (buildBPL [(0:ℝ), 1] [(1:ℝ), 2, 4]) := by
  rw [mkBrokenPowerLaw_ok_iff]
  refine ⟨by norm_num, chain124,
    ne_of_gt (totalOf_pos (by norm_num) chain124 (by norm_num [List.getD_cons_zero]) (by norm_num)),
    rfl⟩

/-- Witness for C1: in the second segment of the model with exponents `0, 1`
and bounds `1, 2, 4`, evaluation at `m = 3` uses coefficient and exponent of
index `1`. -/
theorem brokenPowerLaw_eval_in_segment_witness :
    (buildBPL [(0:ℝ), 1] [(1:ℝ), 2, 4]).eval 3 =
      .ok ((buildBPL [(0:ℝ), 1] [(1:ℝ), 2, 4]).cs.getD 1 0 * (3:ℝ) ^
        (buildBPL [(0:ℝ), 1] [(1:ℝ), 2, 4]).gammas.getD 1 0 *
        (buildBPL [(0:ℝ), 1] [(1:ℝ), 2, 4]).k) :=
  brokenPowerLaw_eval_in_segment [0, 1] [1, 2, 4] _ mkBPL_014 1 3 (by norm_num)
    (by norm_num [List.getD_cons_succ, List.getD_cons_zero])
    (by norm_num [List.getD_cons_succ, List.getD_cons_zero])

lemma cs014_at_1 : (csList [(0:ℝ), 1] [(1:ℝ), 2, 4]).getD 1 0 = 1 / 2 := by
  rw [csList_getD _ _ (by norm_num)]
  show csFun _ _ (0 + 1) = 1 / 2
  simp [csFun, List.getD_cons_succ, List.getD_cons_zero, Real.rpow_zero, Real.rpow_one]

lemma cs014_at_0 : (csList [(0:ℝ), 1] [(1:ℝ), 2, 4]).getD 0 0 = 1 := by
  rw [csList_getD _ _ (by norm_num)]
  rfl

/-- Counterexample to C1 as stated: at `m = bounds[0]` the segment search
yields Python index `-1`, so evaluation does NOT return
`c[0]*k*bounds[0]**gammas[0]` (here it returns `c[1]*k*1**gammas[1]`, and
`c[1] = 1/2 ≠ 1 = c[0]`). -/
theorem brokenPowerLaw_lower_edge_cex :
    mkBrokenPowerLaw [(0:ℝ), 1] [(1:ℝ), 2, 4] = .ok (buildBPL [(0:ℝ), 1] [(1:ℝ), 2, 4]) ∧
    (buildBPL [(0:ℝ), 1] [(1:ℝ), 2, 4]).eval 1 ≠
      .ok ((buildBPL [(0:ℝ), 1] [(1:ℝ), 2, 4]).cs.getD 0 0 * (1:ℝ) ^
        (buildBPL [(0:ℝ), 1] [(1:ℝ), 2, 4]).gammas.getD 0 0 *
        (buildBPL [(0:ℝ), 1] [(1:ℝ), 2, 4]).k) := by
  have htot : (0:ℝ) < totalOf [(0:ℝ), 1] [(1:ℝ), 2, 4] :=
    totalOf_pos (by norm_num) chain124 (by norm_num [List.getD_cons_zero]) (by norm_num)
  refine ⟨mkBPL_014, ?_⟩
  have hev := bpl_eval_lower_edge [(0:ℝ), 1] [(1:ℝ), 2, 4] _ mkBPL_014
  rw [show (([(1:ℝ), 2, 4]).getD 0 0) = 1 from rfl] at hev
  rw [show (([(0:ℝ), 1]).length - 1) = 1 from rfl] at hev
  rw [hev]
  simp only [buildBPL]
  rw [cs014_at_1, cs014_at_0, Real.one_rpow, Real.one_rpow]
  intro h
  injection h with h
  rw [mul_one, mul_one] at h
  have : totalOf [(0:ℝ), 1] [(1:ℝ), 2, 4] ≠ 0 := ne_of_gt htot
  field_simp at h

/-- Claim C4: for a successfully constructed model with at least two
segments, evaluation at the exact lower edge `bounds[0]` succeeds and uses
the LAST segment's continuity coefficient and exponent (the segment search
yields Python index `-1`). -/
theorem brokenPowerLaw_lower_edge_uses_last_segment (g b : List ℝ)
    (M : BrokenPowerLaw) (hM : mkBrokenPowerLaw g b = .ok M) (hn : 2 ≤ g.length) :
    M.eval (b.getD 0 0) =
      .ok (M.cs.getD (g.length - 1) 0 * (b.getD 0 0) ^ (g.getD (g.length - 1) 0) * M.k) := by
  have h := bpl_eval_lower_edge g b M hM
  obtain ⟨-, -, -, rfl⟩ := (mkBrokenPowerLaw_ok_iff g b M).mp hM
  exact h

/-- Witness for C4 at the model with exponents `0, 1` and bounds `1, 2, 4`. -/
theorem brokenPowerLaw_lower_edge_uses_last_segment_witness :
    (buildBPL [(0:ℝ), 1] [(1:ℝ), 2, 4]).eval (([(1:ℝ), 2, 4]).getD 0 0) =
      .ok ((buildBPL [(0:ℝ), 1] [(1:ℝ), 2, 4]).cs.getD (([(0:ℝ), 1]).length - 1) 0 *
        (([(1:ℝ), 2, 4]).getD 0 0) ^ (([(0:ℝ), 1]).getD (([(0:ℝ), 1]).length - 1) 0) *
        (buildBPL [(0:ℝ), 1] [(1:ℝ), 2, 4]).k) :=
  brokenPowerLaw_lower_edge_uses_last_segment [0, 1] [1, 2, 4] _ mkBPL_014 (by norm_num)

/-- Claim C3: the continuity coefficients satisfy `c[0] = 1`, and at every
interior boundary `b = bounds[i]` (with `b > 0`) the coefficient-weighted
one-sided values agree: `c[i-1]*b**gammas[i-1] = c[i]*b**gammas[i]`. -/
theorem brokenPowerLaw_continuity (g b : List ℝ) (M : BrokenPowerLaw)
    (hM : mkBrokenPowerLaw g b = .ok M) :
    M.cs.getD 0 0 = 1 ∧
      ∀ i, 1 ≤ i → i < g.length → 0 < b.getD i 0 →
        M.cs.getD (i - 1) 0 * (b.getD i 0) ^ (g.getD (i - 1) 0) =
          M.cs.getD i 0 * (b.getD i 0) ^ (g.getD i 0) := by
  obtain ⟨hsh, hch, htot, rfl⟩ := (mkBrokenPowerLaw_ok_iff g b M).mp hM
  have hg : g.length ≠ 0 := fun h0 => htot (totalOf_eq_zero_of_nil g b h0)
  constructor
  · show (csList g b).getD 0 0 = 1
    rw [csList_getD g b (Nat.pos_of_ne_zero hg)]
    rfl
  · intro i h1 hi hbpos
    obtain ⟨j, rfl⟩ : ∃ j, i = j + 1 := ⟨i - 1, by omega⟩
    show (csList g b).getD (j + 1 - 1) 0 * _ = (csList g b).getD (j + 1) 0 * _
    rw [Nat.add_sub_cancel, csList_getD g b (by omega), csList_getD g b hi]
    show csFun g b j * _ = csFun g b (j + 1) * _
    rw [show csFun g b (j + 1) =
      csFun g b j * (b.getD (j + 1) 0) ^ (g.getD j 0) /
        (b.getD (j + 1) 0) ^ (g.getD (j + 1) 0) from rfl]
    rw [div_mul_cancel₀]
    exact ne_of_gt (Real.rpow_pos_of_pos hbpos _)

/-- Witness for C3 at the model with exponents `0, 1` and bounds `1, 2, 4`,
checking the interior boundary `bounds[1] = 2`. -/
theorem brokenPowerLaw_continuity_witness :
    (buildBPL [(0:ℝ), 1] [(1:ℝ), 2, 4]).cs.getD 0 0 = 1 ∧
    (buildBPL [(0:ℝ), 1] [(1:ℝ), 2, 4]).cs.getD 0 0 * (([(1:ℝ), 2, 4]).getD 1 0) ^
        (([(0:ℝ), 1]).getD 0 0) =
      (buildBPL [(0:ℝ), 1] [(1:ℝ), 2, 4]).cs.getD 1 0 * (([(1:ℝ), 2, 4]).getD 1 0) ^
        (([(0:ℝ), 1]).getD 1 0) := by
  have h := brokenPowerLaw_continuity [(0:ℝ), 1] [(1:ℝ), 2, 4] _ mkBPL_014
  exact ⟨h.1, h.2 1 le_rfl (by norm_num)
    (by norm_num [List.getD_cons_succ, List.getD_cons_zero])⟩

lemma except_error_ne {α : Type} {e₁ e₂ : IMFError} (h : e₁ ≠ e₂) :
    (Except.error e₁ : Except IMFError α) ≠ Except.error e₂ := by
  intro hc
  injection hc with hc
  exact h hc

lemma mkBPL_ne_invalidDomain (g b : List ℝ) :
    mkBrokenPowerLaw g b ≠ .error .invalidDomain := by
  unfold mkBrokenPowerLaw
  split_ifs <;> intro hc <;> simp at hc

lemma mkBPL_ne_wrongSegmentCount (g b : List ℝ) :
    mkBrokenPowerLaw g b ≠ .error .wrongSegmentCount := by
  unfold mkBrokenPowerLaw
  split_ifs <;> intro hc <;> simp at hc

/-- Claim C6 (amended): `ShapeMismatch` exactly when
`len(gammas) != len(bounds)-1`; given matching lengths,
`NonMonotonicBounds` exactly when the bounds are not strictly increasing;
and when neither condition holds AND the summed exact segment integrals are
nonzero, construction succeeds and stores exactly the given `gammas` and
`bounds`.  (With a zero total — e.g. an empty `gammas` — the Python source
raises `ZeroDivisionError` at `self.k = 1/integrated`.) -/
theorem brokenPowerLaw_construction_checks :
    (∀ g b : List ℝ, mkBrokenPowerLaw g b = .error .shapeMismatch ↔
        (g.length : ℤ) ≠ (b.length : ℤ) - 1) ∧
    (∀ g b : List ℝ, (g.length : ℤ) = (b.length : ℤ) - 1 →
        (mkBrokenPowerLaw g b = .error .nonMonotonicBounds ↔ ¬ b.Chain' (· < ·))) ∧
    (∀ g b : List ℝ, (g.length : ℤ) = (b.length : ℤ) - 1 → b.Chain' (· < ·) →
        totalOf g b ≠ 0 →
        mkBrokenPowerLaw g b = .ok (buildBPL g b) ∧
          (buildBPL g b).gammas = g ∧ (buildBPL g b).bounds = b) := by
  refine ⟨fun g b => ?_, fun g b hsh => ?_, fun g b hsh hch htot => ?_⟩
  · unfold mkBrokenPowerLaw
    by_cases h1 : (g.length : ℤ) ≠ (b.length : ℤ) - 1
    · rw [if_pos h1]
      exact iff_of_true rfl h1
    · rw [if_neg h1]
      refine iff_of_false ?_ h1
      by_cases h2 : ¬ b.Chain' (· < ·)
      · rw [if_pos h2]
        intro hc
        injection hc with hc
        exact absurd hc (by decide)
      · rw [if_neg h2]
        by_cases h3 : totalOf g b = 0
        · rw [if_pos h3]
          intro hc
          injection hc with hc
          exact absurd hc (by decide)
        · rw [if_neg h3]
          exact fun hc => Except.noConfusion hc
  · unfold mkBrokenPowerLaw
    rw [if_neg (not_not_intro hsh)]
    by_cases h2 : ¬ b.Chain' (· < ·)
    · rw [if_pos h2]
      exact iff_of_true rfl h2
    · rw [if_neg h2]
      refine iff_of_false ?_ h2
      by_cases h3 : totalOf g b = 0
      · rw [if_pos h3]
        intro hc
        injection hc with hc
        exact absurd hc (by decide)
      · rw [if_neg h3]
        exact fun hc => Except.noConfusion hc
  · unfold mkBrokenPowerLaw
    rw [if_neg (not_not_intro hsh), if_neg (not_not_intro hch), if_neg htot]
    exact ⟨rfl, rfl, rfl⟩

lemma chain12 : List.Chain' (· < ·) [(1:ℝ), 2] := by
  norm_num [List.chain'_pair]

lemma total12_ne : totalOf [(0:ℝ)] [(1:ℝ), 2] ≠ 0 :=
  ne_of_gt (totalOf_pos (by norm_num) chain12 (by norm_num [List.getD_cons_zero]) (by norm_num))

/-- Witness for C6: a shape mismatch, a non-monotonic bounds failure, and a
successful construction. -/
theorem brokenPowerLaw_construction_checks_witness :
    mkBrokenPowerLaw [(1:ℝ)] [(1:ℝ)] = .error .shapeMismatch ∧
    mkBrokenPowerLaw [(1:ℝ)] [(2:ℝ), 1] = .error .nonMonotonicBounds ∧
    mkBrokenPowerLaw [(0:ℝ)] [(1:ℝ), 2] = .ok (buildBPL [(0:ℝ)] [(1:ℝ), 2]) :=
  ⟨(brokenPowerLaw_construction_checks.1 [1] [1]).mpr (by norm_num),
   (brokenPowerLaw_construction_checks.2.1 [1] [2, 1] (by norm_num)).mpr
     (by norm_num [List.chain'_pair]),
   (brokenPowerLaw_construction_checks.2.2 [0] [1, 2] (by norm_num) chain12 total12_ne).1⟩

/-- Counterexample to C6 as stated: with `gammas = []` and `bounds = [5]`
both named checks pass, yet construction does not succeed — the summed
integral is `0` and `self.k = 1/integrated` raises `ZeroDivisionError`. -/
theorem brokenPowerLaw_empty_gammas_cex :
    ((([] : List ℝ).length : ℤ) = (([(5:ℝ)]).length : ℤ) - 1) ∧
    List.Chain' (· < ·) [(5:ℝ)] ∧
    mkBrokenPowerLaw ([] : List ℝ) [(5:ℝ)] = .error .divisionByZero := by
  refine ⟨by norm_num, List.chain'_singleton 5, ?_⟩
  unfold mkBrokenPowerLaw
  rw [if_neg (by norm_num), if_neg (not_not_intro (List.chain'_singleton (5:ℝ))),
    if_pos (totalOf_eq_zero_of_nil ([] : List ℝ) [(5:ℝ)] rfl)]

/-- Claim C7 (amended): `PowerLaw` construction fails with `InvalidDomain`
iff `a <= 0` or `b < a`; for `a = b > 0` the `InvalidDomain` guard passes
and the inherited bounds check fails with `NonMonotonicBounds` instead. -/
theorem powerLaw_domain_guard :
    (∀ gamma a b : ℝ, mkPowerLaw gamma a b = .error .invalidDomain ↔ (a ≤ 0 ∨ b < a)) ∧
    (∀ gamma a : ℝ, 0 < a → mkPowerLaw gamma a a = .error .nonMonotonicBounds) := by
  constructor
  · intro gamma a b
    unfold mkPowerLaw
    by_cases h : a ≤ 0 ∨ b < a
    · rw [if_pos h]
      exact iff_of_true rfl h
    · rw [if_neg h]
      exact iff_of_false (mkBPL_ne_invalidDomain _ _) h
  · intro gamma a ha
    unfold mkPowerLaw
    rw [if_neg (by push_neg; exact ⟨ha, le_rfl⟩)]
    unfold mkBrokenPowerLaw
    rw [if_neg (by norm_num), if_pos (by simp [List.chain'_pair])]

/-- Witness for C7: at `gamma = 1, a = b = 1` the construction fails with
`NonMonotonicBounds`, and at `a = 0` with `InvalidDomain`. -/
theorem powerLaw_domain_guard_witness :
    mkPowerLaw 1 0 1 = .error .invalidDomain ∧
    mkPowerLaw 1 1 1 = .error .nonMonotonicBounds :=
  ⟨(powerLaw_domain_guard.1 1 0 1).mpr (Or.inl le_rfl),
   powerLaw_domain_guard.2 1 1 one_pos⟩

/-- Counterexample to C7 as stated: `a = b = 1 > 0`, yet the failure is
`NonMonotonicBounds` (from the inherited bounds check), not `InvalidDomain`. -/
theorem powerLaw_equal_bounds_cex :
    (0:ℝ) < 1 ∧ mkPowerLaw 1 1 1 = .error .nonMonotonicBounds ∧
      mkPowerLaw 1 1 1 ≠ .error .invalidDomain := by
  have h : mkPowerLaw (1:ℝ) 1 1 = .error .nonMonotonicBounds := by
    unfold mkPowerLaw
    rw [if_neg (by norm_num)]
    unfold mkBrokenPowerLaw
    rw [if_neg (by norm_num), if_pos (by simp [List.chain'_pair])]
  refine ⟨one_pos, h, ?_⟩
  rw [h]
  exact except_error_ne (by decide)

/-- Claim C8: `Kroupa` fails with `WrongSegmentCount` iff the number of
exponents differs from 4; otherwise it is exactly the broken power-law
composite on boundaries `(0.01, 0.08, 0.5, 1, ub)`; the default exponents
are `(-0.3, -1.3, -2.3, -2.3)`. -/
theorem kroupa_spec :
    (∀ (g : List ℝ) (ub : ℝ), mkKroupaIMF g ub = .error .wrongSegmentCount ↔ g.length ≠ 4) ∧
    (∀ (g : List ℝ) (ub : ℝ), g.length = 4 →
        mkKroupaIMF g ub = mkBrokenPowerLaw g [0.01, 0.08, 0.5, 1, ub]) ∧
    kroupaDefaultGammas = [-0.3, -1.3, -2.3, -2.3] ∧
    kroupaDefaultGammas.length = 4 := by
  refine ⟨fun g ub => ?_, fun g ub h4 => ?_, rfl, rfl⟩
  · unfold mkKroupaIMF
    by_cases h : g.length ≠ 4
    · rw [if_pos h]
      exact iff_of_true rfl h
    · rw [if_neg h]
      exact iff_of_false (mkBPL_ne_wrongSegmentCount _ _) h
  · unfold mkKroupaIMF
    rw [if_neg (not_not_intro h4)]

/-- Witness for C8: a wrong segment count fails, and the default exponents
with `ub = 150` delegate to the broken power-law constructor. -/
theorem kroupa_spec_witness :
    mkKroupaIMF [(1:ℝ), 2] 5 = .error .wrongSegmentCount ∧
    mkKroupaIMF kroupaDefaultGammas 150 =
      mkBrokenPowerLaw kroupaDefaultGammas [0.01, 0.08, 0.5, 1, 150] :=
  ⟨(kroupa_spec.1 [1, 2] 5).mpr (by norm_num),
   kroupa_spec.2.1 kroupaDefaultGammas 150 rfl⟩

lemma integral_eq_powIntegral {g l u : ℝ} (hl : 0 < l) (hu : 0 < u) :
    ∫ x in l..u, x ^ g = powIntegral g l u := by
  unfold powIntegral
  split_ifs with h
  · subst h
    simp_rw [Real.rpow_neg_one]
    rw [integral_inv (Set.not_mem_uIcc_of_lt hl hu)]
    exact Real.log_div (ne_of_gt hu) (ne_of_gt hl)
  · exact integral_rpow (Or.inr ⟨h, Set.not_mem_uIcc_of_lt hl hu⟩)

/-- Claim C2: the stored normalization constant is the reciprocal of the sum
of the exact coefficient-weighted segment integrals, and consequently the
integral of the k-scaled piecewise density over the whole domain
(decomposed as the sum of its segment integrals) equals 1. -/
theorem brokenPowerLaw_normalization (g b : List ℝ) (M : BrokenPowerLaw)
    (hM : mkBrokenPowerLaw g b = .ok M) (hpos : 0 < b.getD 0 0) :
    M.k = (∑ i in Finset.range g.length,
        M.cs.getD i 0 * ∫ x in (b.getD i 0)..(b.getD (i + 1) 0), x ^ (g.getD i 0))⁻¹ ∧
    ∑ i in Finset.range g.length,
        ∫ x in (b.getD i 0)..(b.getD (i + 1) 0), M.cs.getD i 0 * M.k * x ^ (g.getD i 0) = 1 := by
  obtain ⟨hsh, hch, htot, rfl⟩ := (mkBrokenPowerLaw_ok_iff g b M).mp hM
  have hlen : b.length = g.length + 1 := length_of_shape hsh
  have hpt : ∀ i ∈ Finset.range g.length,
      ∫ x in (b.getD i 0)..(b.getD (i + 1) 0), x ^ (g.getD i 0) =
        powIntegral (g.getD i 0) (b.getD i 0) (b.getD (i + 1) 0) := by
    intro i hi
    rw [Finset.mem_range] at hi
    exact integral_eq_powIntegral
      (lt_of_lt_of_le hpos (chain'_le_getD hch (Nat.zero_le i) (by omega)))
      (lt_of_lt_of_le hpos (chain'_le_getD hch (Nat.zero_le (i + 1)) (by omega)))
  constructor
  · show (1 / totalOf g b) = _
    rw [Finset.sum_congr rfl (fun i hi => by rw [hpt i hi])]
    exact one_div (totalOf g b)
  · have hstep : ∀ i ∈ Finset.range g.length,
        (∫ x in (b.getD i 0)..(b.getD (i + 1) 0),
          (csList g b).getD i 0 * (1 / totalOf g b) * x ^ (g.getD i 0)) =
        (1 / totalOf g b) *
          ((csList g b).getD i 0 *
            powIntegral (g.getD i 0) (b.getD i 0) (b.getD (i + 1) 0)) := by
      intro i hi
      rw [integral_const_mul, hpt i hi]
      ring
    show (∑ i in Finset.range g.length,
        ∫ x in (b.getD i 0)..(b.getD (i + 1) 0),
          (csList g b).getD i 0 * (1 / totalOf g b) * x ^ (g.getD i 0)) = 1
    rw [Finset.sum_congr rfl hstep, ← Finset.mul_sum]
    show (1 / totalOf g b) * totalOf g b = 1
    exact one_div_mul_cancel htot

lemma mkBPL_012_ok :
    mkBrokenPowerLaw [(0:ℝ)] [(1:ℝ), 2] = .ok (buildBPL [(0:ℝ)] [(1:ℝ), 2]) :=
  (mkBrokenPowerLaw_ok_iff _ _ _).mpr ⟨by norm_num, chain12, total12_ne, rfl⟩

/-- Witness for C2 at the single-segment model with exponent `0` on `[1, 2]`. -/
theorem brokenPowerLaw_normalization_witness :
    (buildBPL [(0:ℝ)] [(1:ℝ), 2]).k = (∑ i in Finset.range ([(0:ℝ)]).length,
        (buildBPL [(0:ℝ)] [(1:ℝ), 2]).cs.getD i 0 *
          ∫ x in (([(1:ℝ), 2]).getD i 0)..(([(1:ℝ), 2]).getD (i + 1) 0),
            x ^ (([(0:ℝ)]).getD i 0))⁻¹ ∧
    ∑ i in Finset.range ([(0:ℝ)]).length,
        ∫ x in (([(1:ℝ), 2]).getD i 0)..(([(1:ℝ), 2]).getD (i + 1) 0),
          (buildBPL [(0:ℝ)] [(1:ℝ), 2]).cs.getD i 0 * (buildBPL [(0:ℝ)] [(1:ℝ), 2]).k *
            x ^ (([(0:ℝ)]).getD i 0) = 1 :=
  brokenPowerLaw_normalization [(0:ℝ)] [(1:ℝ), 2] _ mkBPL_012_ok
    (by norm_num [List.getD_cons_zero])

lemma mkPowerLaw_ok (gamma a b : ℝ) (M : BrokenPowerLaw)
    (hM : mkPowerLaw gamma a b = .ok M) :
    0 < a ∧ a < b ∧ totalOf [gamma] [a, b] ≠ 0 ∧ M = buildBPL [gamma] [a, b] := by
  unfold mkPowerLaw at hM
  by_cases h : a ≤ 0 ∨ b < a
  · rw [if_pos h] at hM
    exact absurd hM (by simp)
  · rw [if_neg h] at hM
    push_neg at h
    obtain ⟨hsh, hch, htot, rfl⟩ := (mkBrokenPowerLaw_ok_iff _ _ _).mp hM
    exact ⟨h.1, List.chain'_pair.mp hch, htot, rfl⟩

lemma csList_single (gamma a b : ℝ) : (csList [gamma] [a, b]).getD 0 0 = 1 := by
  simp [csList, csFun]

/-- Value of a single-segment power law anywhere in its domain: both at the
lower edge (where the Python index `-1` wraps around to the unique segment)
and strictly inside, the returned value is `1 * m**gamma * k`. -/
lemma powerLaw_eval_val (gamma a b : ℝ) (M : BrokenPowerLaw)
    (hM : mkPowerLaw gamma a b = .ok M) (m : ℝ) (h1 : a ≤ m) (h2 : m ≤ b) :
    M.eval m = .ok (1 * m ^ gamma * M.k) := by
  obtain ⟨ha, hab, htot, rfl⟩ := mkPowerLaw_ok gamma a b M hM
  have hmk : mkBrokenPowerLaw [gamma] [a, b] = .ok (buildBPL [gamma] [a, b]) :=
    (mkBrokenPowerLaw_ok_iff _ _ _).mpr ⟨by norm_num, List.chain'_pair.mpr hab, htot, rfl⟩
  rcases eq_or_lt_of_le h1 with rfl | hlt
  · have h := bpl_eval_lower_edge [gamma] [a, b] _ hmk
    rw [show (([a, b]).getD 0 0) = a from rfl, show (([gamma]).length - 1) = 0 from rfl,
      show (([gamma]).getD 0 0) = gamma from rfl, csList_single gamma a b] at h
    exact h
  · have h := bpl_eval_in_segment_aux [gamma] [a, b] _ hmk 0 m (by norm_num)
      (by simpa using hlt) (by simpa using h2)
    rw [show ((buildBPL [gamma] [a, b]).cs.getD 0 0) = 1 from csList_single gamma a b,
      show ((buildBPL [gamma] [a, b]).gammas.getD 0 0) = gamma from rfl] at h
    exact h

/-- Claim C10: a Salpeter power law (exponent `-2.35`) on `[a, b]` is
strictly decreasing: for `a ≤ m1 < m2 ≤ b` both evaluations succeed and the
value at `m2` is strictly below the value at `m1`. -/
theorem salpeter_strictly_decreasing (a b : ℝ) (M : BrokenPowerLaw)
    (hM : mkSalpeterIMF a b = .ok M) (m1 m2 : ℝ)
    (h1 : a ≤ m1) (h12 : m1 < m2) (h2 : m2 ≤ b) :
    M.eval m1 = .ok (exVal (M.eval m1)) ∧ M.eval m2 = .ok (exVal (M.eval m2)) ∧
      exVal (M.eval m2) < exVal (M.eval m1) := by
  have hv1 := powerLaw_eval_val (-2.35) a b M hM m1 h1 (le_of_lt (lt_of_lt_of_le h12 h2))
  have hv2 := powerLaw_eval_val (-2.35) a b M hM m2 (le_trans h1 (le_of_lt h12)) h2
  obtain ⟨ha, hab, htot, rfl⟩ := mkPowerLaw_ok (-2.35) a b M hM
  have hk : 0 < (buildBPL [(-2.35:ℝ)] [a, b]).k := by
    show 0 < 1 / totalOf [(-2.35:ℝ)] [a, b]
    exact div_pos one_pos (totalOf_pos (by norm_num) (List.chain'_pair.mpr hab)
      (by simpa using ha) (by norm_num))
  have hmono : m2 ^ (-2.35:ℝ) < m1 ^ (-2.35:ℝ) :=
    Real.rpow_lt_rpow_of_neg (lt_of_lt_of_le ha h1) h12 (by norm_num)
  rw [hv1, hv2]
  refine ⟨rfl, rfl, ?_⟩
  show 1 * m2 ^ (-2.35:ℝ) * _ < 1 * m1 ^ (-2.35:ℝ) * _
  rw [one_mul, one_mul]
  exact mul_lt_mul_of_pos_right hmono hk

lemma chain12s : List.Chain' (· < ·) [(1:ℝ), 2] := chain12

lemma totalSal_ne : totalOf [(-2.35 : ℝ)] [(1:ℝ), 2] ≠ 0 :=
  ne_of_gt (totalOf_pos (by norm_num) chain12 (by norm_num [List.getD_cons_zero]) (by norm_num))

lemma mkSalpeter12_ok : mkSalpeterIMF 1 2 = .ok plW := by
  show mkPowerLaw (-2.35) 1 2 = .ok plW
  unfold mkPowerLaw
  rw [if_neg (by norm_num)]
  exact (mkBrokenPowerLaw_ok_iff _ _ _).mpr ⟨by norm_num, chain12, totalSal_ne, rfl⟩

/-- Witness for C10 on the Salpeter model over `[1, 2]` with `m1 = 1`,
`m2 = 2`. -/
theorem salpeter_strictly_decreasing_witness :
    plW.eval 1 = .ok (exVal (plW.eval 1)) ∧ plW.eval 2 = .ok (exVal (plW.eval 2)) ∧
      exVal (plW.eval 2) < exVal (plW.eval 1) :=
  salpeter_strictly_decreasing 1 2 plW mkSalpeter12_ok 1 2 le_rfl one_lt_two le_rfl

lemma logNormal_eval_ok (L : LogNormal) (m : ℝ) (h1 : L.a ≤ m) (h2 : m ≤ L.b) :
    L.eval m = .ok (L.k * L.pf * (1 / m) *
      Real.exp (-1 * (Real.log m - Real.log L.u) ^ 2 / (2 * L.v ^ 2))) := by
  unfold LogNormal.eval
  rw [if_neg (by push_neg; exact ⟨h1, h2⟩)]

lemma logNormal_eval_err (L : LogNormal) (m : ℝ) (h : m < L.a ∨ L.b < m) :
    L.eval m = .error .outOfDomain := by
  unfold LogNormal.eval
  rw [if_pos h]

lemma lnShape_continuousOn (u v : ℝ) {s : Set ℝ} (hs : ∀ x ∈ s, x ≠ 0) :
    ContinuousOn
      (fun x : ℝ => Real.exp (-1 * (Real.log x - Real.log u) ^ 2 / (2 * v ^ 2))) s := by
  apply Real.continuous_exp.comp_continuousOn
  apply ContinuousOn.div_const
  apply ContinuousOn.mul continuousOn_const
  apply ContinuousOn.pow
  exact ContinuousOn.sub (Real.continuousOn_log.mono hs) continuousOn_const

lemma lnInv_continuousOn {s : Set ℝ} (hs : ∀ x ∈ s, x ≠ 0) :
    ContinuousOn (fun x : ℝ => 1 / x) s :=
  continuousOn_const.div continuousOn_id hs

lemma lnIntegrand_continuousOn (pf u v : ℝ) {s : Set ℝ} (hs : ∀ x ∈ s, x ≠ 0) :
    ContinuousOn
      (fun x : ℝ => (1 / x) * pf *
        Real.exp (-1 * (Real.log x - Real.log u) ^ 2 / (2 * v ^ 2))) s :=
  ((lnInv_continuousOn hs).mul continuousOn_const).mul (lnShape_continuousOn u v hs)

lemma lnIntegral_pos (pf u v a b : ℝ) (ha : 0 < a) (hab : a < b) (hpf : 0 < pf) :
    0 < lnIntegral pf u v a b := by
  unfold lnIntegral
  apply intervalIntegral_pos_of_pos_on
  · apply ContinuousOn.intervalIntegrable
    apply lnIntegrand_continuousOn
    intro x hx
    rw [Set.uIcc_of_le (le_of_lt hab)] at hx
    exact ne_of_gt (lt_of_lt_of_le ha hx.1)
  · intro x hx
    have hx0 : 0 < x := lt_trans ha hx.1
    positivity
  · exact hab

lemma mkLogNormal_ok_iff (pf u v a b : ℝ) (L : LogNormal) :
    mkLogNormal pf u v a b = .ok L ↔
      lnIntegral pf u v a b ≠ 0 ∧ L = ⟨pf, u, v, a, b, 1 / lnIntegral pf u v a b⟩ := by
  unfold mkLogNormal
  by_cases h : lnIntegral pf u v a b = 0
  · rw [if_pos h]
    constructor
    · intro hc
      exact absurd hc (by simp)
    · intro hc
      exact absurd h hc.1
  · rw [if_neg h]
    constructor
    · intro hc
      injection hc with hc
      exact ⟨h, hc.symm⟩
    · rintro ⟨-, rfl⟩
      rfl

lemma logNormal_eval_exVal (L : LogNormal) (m : ℝ) (h1 : L.a ≤ m) (h2 : m ≤ L.b) :
    exVal (L.eval m) = L.k * L.pf * (1 / m) *
      Real.exp (-1 * (Real.log m - Real.log L.u) ^ 2 / (2 * L.v ^ 2)) := by
  rw [logNormal_eval_ok L m h1 h2]
  rfl

lemma lnW_k_pos : 0 < lnW.k :=
  div_pos one_pos (lnIntegral_pos 1 1 1 0.01 1 (by norm_num) (by norm_num) one_pos)

lemma mkLogNormal_W_ok : mkLogNormal 1 1 1 0.01 1 = .ok lnW :=
  (mkLogNormal_ok_iff 1 1 1 0.01 1 lnW).mpr
    ⟨ne_of_gt (lnIntegral_pos 1 1 1 0.01 1 (by norm_num) (by norm_num) one_pos), rfl⟩

lemma mkChabrier_ok_elim (pf u v ub : ℝ) (C : ChabrierIMF)
    (hC : mkChabrierIMF pf u v ub = .ok C) :
    ∃ (ln : LogNormal) (pl : BrokenPowerLaw),
      mkLogNormal pf u v 0.01 1 = .ok ln ∧ mkSalpeterIMF 1 ub = .ok pl ∧
      chabrierIntegrated ub ln pl ≠ 0 ∧ C = buildChabrier pf u v ub ln pl := by
  unfold mkChabrierIMF at hC
  cases hln : mkLogNormal pf u v 0.01 1 with
  | error e =>
    rw [hln] at hC
    simp at hC
  | ok ln =>
    rw [hln] at hC
    cases hpl : mkSalpeterIMF 1 ub with
    | error e =>
      rw [hpl] at hC
      simp at hC
    | ok pl =>
      rw [hpl] at hC
      replace hC :
          (if chabrierIntegrated ub ln pl = 0 then
            (Except.error IMFError.divisionByZero : Except IMFError ChabrierIMF)
          else Except.ok (buildChabrier pf u v ub ln pl)) = Except.ok C := hC
      by_cases hz : chabrierIntegrated ub ln pl = 0
      · rw [if_pos hz] at hC
        simp at hC
      · rw [if_neg hz] at hC
        injection hC with hC
        exact ⟨ln, pl, rfl, rfl, hz, hC.symm⟩

/-- Claim C9: for every constructed Chabrier model, the parts are the
individually normalized log-normal on `[0.01, 1]` and the Salpeter power law
on `[1, ub]`, the join coefficient is the ratio of their values at mass 1,
and evaluation returns `k` times the log-normal part on `[0.01, 1]`,
`k*c` times the power-law part on `(1, ub]`, and fails with `OutOfDomain`
outside `[0.01, ub]`. -/
theorem chabrier_spec (pf u v ub : ℝ) (C : ChabrierIMF)
    (hC : mkChabrierIMF pf u v ub = .ok C) :
    C.lognorm_part.a = 0.01 ∧ C.lognorm_part.b = 1 ∧
    C.powerlaw_part.gammas = [-2.35] ∧ C.powerlaw_part.bounds = [1, ub] ∧
    C.c = exVal (C.lognorm_part.eval 1) / exVal (C.powerlaw_part.eval 1) ∧
    (∀ m : ℝ, 0.01 ≤ m → m ≤ 1 → C.eval m = .ok (C.k * exVal (C.lognorm_part.eval m))) ∧
    (∀ m : ℝ, 1 < m → m ≤ ub → C.eval m = .ok (C.k * C.c * exVal (C.powerlaw_part.eval m))) ∧
    (∀ m : ℝ, m < 0.01 ∨ ub < m → C.eval m = .error .outOfDomain) := by
  obtain ⟨ln, pl, hln, hpl, hz, rfl⟩ := mkChabrier_ok_elim pf u v ub C hC
  obtain ⟨hlnne, rfl⟩ := (mkLogNormal_ok_iff pf u v 0.01 1 ln).mp hln
  obtain ⟨h01, h1ub, hplne, rfl⟩ := mkPowerLaw_ok (-2.35) 1 ub pl hpl
  refine ⟨rfl, rfl, rfl, rfl, rfl, ?_, ?_, ?_⟩
  · intro m hm1 hm2
    unfold ChabrierIMF.eval
    rw [if_neg (by push_neg; exact ⟨hm1, le_of_lt (lt_of_le_of_lt hm2 h1ub)⟩)]
    rw [if_pos hm2]
  · intro m hm1 hm2
    unfold ChabrierIMF.eval
    rw [if_neg (by push_neg; exact ⟨le_of_lt (lt_trans (by norm_num) hm1), hm2⟩)]
    rw [if_neg (not_le.mpr hm1), if_pos (le_of_lt hm1)]
  · intro m hm
    unfold ChabrierIMF.eval
    simp only [buildChabrier]
    rw [if_pos hm]

lemma plW_eval_exVal (m : ℝ) (h1 : 1 ≤ m) (h2 : m ≤ 2) :
    exVal (plW.eval m) = 1 * m ^ (-2.35:ℝ) * plW.k := by
  rw [powerLaw_eval_val (-2.35) 1 2 plW mkSalpeter12_ok m h1 h2]
  rfl

lemma plW_k_pos : 0 < plW.k := by
  show 0 < 1 / totalOf [(-2.35:ℝ)] [1, 2]
  exact div_pos one_pos
    (totalOf_pos (by norm_num) chain12 (by norm_num [List.getD_cons_zero]) (by norm_num))

lemma uIcc_ne_zero : ∀ x ∈ Set.uIcc (0.01:ℝ) 1, x ≠ 0 := by
  intro x hx
  rw [Set.uIcc_of_le (by norm_num)] at hx
  exact ne_of_gt (lt_of_lt_of_le (by norm_num) hx.1)

lemma chabrierI1_pos : 0 < ∫ x in (0.01:ℝ)..1, exVal (lnW.eval x) := by
  apply intervalIntegral_pos_of_pos_on
  · have hcont : ContinuousOn
        (fun x : ℝ => lnW.k * lnW.pf * (1 / x) *
          Real.exp (-1 * (Real.log x - Real.log lnW.u) ^ 2 / (2 * lnW.v ^ 2)))
        (Set.uIcc (0.01:ℝ) 1) :=
      ((continuousOn_const.mul (lnInv_continuousOn uIcc_ne_zero)).mul
        (lnShape_continuousOn lnW.u lnW.v uIcc_ne_zero))
    apply ContinuousOn.intervalIntegrable
    apply ContinuousOn.congr hcont
    intro x hx
    rw [Set.uIcc_of_le (by norm_num)] at hx
    exact logNormal_eval_exVal lnW x hx.1 hx.2
  · intro x hx
    rw [logNormal_eval_exVal lnW x (le_of_lt hx.1) (le_of_lt hx.2)]
    have hk : 0 < lnW.k := lnW_k_pos
    have hx0 : 0 < x := lt_trans (by norm_num) hx.1
    have hpf : lnW.pf = 1 := rfl
    rw [hpf]
    positivity
  · norm_num

lemma chabrierJoinW_nonneg : 0 ≤ chabrierJoin lnW plW := by
  unfold chabrierJoin
  apply div_nonneg
  · rw [logNormal_eval_exVal lnW 1 (show (0.01:ℝ) ≤ 1 by norm_num) (show (1:ℝ) ≤ 1 from le_rfl)]
    have hk : 0 < lnW.k := lnW_k_pos
    have hpf : lnW.pf = 1 := rfl
    rw [hpf]
    positivity
  · rw [plW_eval_exVal 1 le_rfl (by norm_num)]
    have hk : 0 < plW.k := plW_k_pos
    positivity

lemma chabrierI2_nonneg :
    0 ≤ ∫ x in (1:ℝ)..2, chabrierJoin lnW plW * exVal (plW.eval x) := by
  apply intervalIntegral.integral_nonneg (by norm_num : (1:ℝ) ≤ 2)
  intro x hx
  apply mul_nonneg chabrierJoinW_nonneg
  rw [plW_eval_exVal x hx.1 hx.2]
  have hk : 0 < plW.k := plW_k_pos
  have hx0 : (0:ℝ) < x := lt_of_lt_of_le one_pos hx.1
  positivity

lemma chabrierIntegratedW_ne : chabrierIntegrated 2 lnW plW ≠ 0 := by
  unfold chabrierIntegrated
  exact ne_of_gt (add_pos_of_pos_of_nonneg chabrierI1_pos chabrierI2_nonneg)

lemma mkChabrierW_ok : mkChabrierIMF 1 1 1 2 = .ok chabW := by
  unfold mkChabrierIMF
  rw [mkLogNormal_W_ok, mkSalpeter12_ok]
  show (if chabrierIntegrated 2 lnW plW = 0 then Except.error IMFError.divisionByZero
    else Except.ok (buildChabrier 1 1 1 2 lnW plW)) = Except.ok chabW
  rw [if_neg chabrierIntegratedW_ne]
  rfl

/-- Witness for C9 on the Chabrier model with `pf = u = v = 1`, `ub = 2`. -/
theorem chabrier_spec_witness :
    chabW.lognorm_part.a = 0.01 ∧ chabW.lognorm_part.b = 1 ∧
    chabW.powerlaw_part.gammas = [-2.35] ∧ chabW.powerlaw_part.bounds = [1, 2] ∧
    chabW.c = exVal (chabW.lognorm_part.eval 1) / exVal (chabW.powerlaw_part.eval 1) ∧
    chabW.eval (1/2) = .ok (chabW.k * exVal (chabW.lognorm_part.eval (1/2))) ∧
    chabW.eval (3/2) = .ok (chabW.k * chabW.c * exVal (chabW.powerlaw_part.eval (3/2))) ∧
    chabW.eval 3 = .error .outOfDomain := by
  have h := chabrier_spec 1 1 1 2 chabW mkChabrierW_ok
  exact ⟨h.1, h.2.1, h.2.2.1, h.2.2.2.1, h.2.2.2.2.1,
    h.2.2.2.2.2.1 (1/2) (by norm_num) (by norm_num),
    h.2.2.2.2.2.2.1 (3/2) (by norm_num) (by norm_num),
    h.2.2.2.2.2.2.2 3 (Or.inr (by norm_num))⟩

lemma bpl_eval_ok_of_in_domain (g b : List ℝ) (M : BrokenPowerLaw)
    (hM : mkBrokenPowerLaw g b = .ok M) (m : ℝ)
    (h1 : b.getD 0 0 ≤ m) (h2 : m ≤ b.getD (b.length - 1) 0) :
    isOkE (M.eval m) = true := by
  obtain ⟨hsh, hch, htot, rfl⟩ := (mkBrokenPowerLaw_ok_iff g b M).mp hM
  have hlen : b.length = g.length + 1 := length_of_shape hsh
  unfold BrokenPowerLaw.eval
  simp only [buildBPL]
  rw [pyGet_neg_one, pyGet_zero, if_neg (by push_neg; exact ⟨h1, h2⟩)]
  obtain ⟨n, hn⟩ := firstGE_exists m b ⟨b.length - 1, by omega, h2⟩
  rw [hn]
  rfl

lemma bpl_eval_err_iff (g b : List ℝ) (M : BrokenPowerLaw)
    (hM : mkBrokenPowerLaw g b = .ok M) (m : ℝ) :
    M.eval m = .error .outOfDomain ↔
      (m < b.getD 0 0 ∨ b.getD (b.length - 1) 0 < m) := by
  obtain ⟨hsh, hch, htot, rfl⟩ := (mkBrokenPowerLaw_ok_iff g b M).mp hM
  have hlen : b.length = g.length + 1 := length_of_shape hsh
  unfold BrokenPowerLaw.eval
  simp only [buildBPL]
  rw [pyGet_neg_one, pyGet_zero]
  by_cases hg : m < b.getD 0 0 ∨ b.getD (b.length - 1) 0 < m
  · rw [if_pos hg]
    exact iff_of_true rfl hg
  · rw [if_neg hg]
    push_neg at hg
    obtain ⟨n, hn⟩ := firstGE_exists m b ⟨b.length - 1, by omega, hg.2⟩
    rw [hn]
    refine iff_of_false ?_ (by push_neg; exact hg)
    intro hc
    simp at hc

/-- Claim C5: for every constructed model (broken power law, log-normal and
Chabrier alike) with domain `[a, b]`, evaluation fails with `OutOfDomain`
exactly when `m < a` or `m > b`, and returns a value for every `m` in
`[a, b]` (in particular at both endpoints). -/
theorem evaluate_domain_check :
    (∀ (g b : List ℝ) (M : BrokenPowerLaw), mkBrokenPowerLaw g b = .ok M → ∀ m : ℝ,
      (M.eval m = .error .outOfDomain ↔
        (m < b.getD 0 0 ∨ b.getD (b.length - 1) 0 < m)) ∧
      (b.getD 0 0 ≤ m → m ≤ b.getD (b.length - 1) 0 → isOkE (M.eval m) = true)) ∧
    (∀ (pf u v a b : ℝ) (L : LogNormal), mkLogNormal pf u v a b = .ok L → ∀ m : ℝ,
      (L.eval m = .error .outOfDomain ↔ (m < a ∨ b < m)) ∧
      (a ≤ m → m ≤ b → isOkE (L.eval m) = true)) ∧
    (∀ (pf u v ub : ℝ) (C : ChabrierIMF), mkChabrierIMF pf u v ub = .ok C → ∀ m : ℝ,
      (C.eval m = .error .outOfDomain ↔ (m < 0.01 ∨ ub < m)) ∧
      (0.01 ≤ m → m ≤ ub → isOkE (C.eval m) = true)) := by
  refine ⟨fun g b M hM m => ⟨bpl_eval_err_iff g b M hM m, bpl_eval_ok_of_in_domain g b M hM m⟩,
    fun pf u v a b L hL m => ?_, fun pf u v ub C hC m => ?_⟩
  · obtain ⟨hne, rfl⟩ := (mkLogNormal_ok_iff pf u v a b L).mp hL
    constructor
    · unfold LogNormal.eval
      by_cases hg : m < a ∨ b < m
      · rw [if_pos hg]
        exact iff_of_true rfl hg
      · rw [if_neg hg]
        refine iff_of_false ?_ hg
        intro hc
        simp at hc
    · intro h1 h2
      unfold LogNormal.eval
      rw [if_neg (by push_neg; exact ⟨h1, h2⟩)]
      rfl
  · obtain ⟨ln, pl, hln, hpl, hz, rfl⟩ := mkChabrier_ok_elim pf u v ub C hC
    constructor
    · unfold ChabrierIMF.eval
      simp only [buildChabrier]
      by_cases hg : m < 0.01 ∨ ub < m
      · rw [if_pos hg]
        exact iff_of_true rfl hg
      · rw [if_neg hg]
        refine iff_of_false ?_ hg
        by_cases h1 : m ≤ 1
        · rw [if_pos h1]
          intro hc
          simp at hc
        · rw [if_neg h1, if_pos (le_of_lt (not_le.mp h1))]
          intro hc
          simp at hc
    · intro hm1 hm2
      unfold ChabrierIMF.eval
      simp only [buildChabrier]
      rw [if_neg (by push_neg; exact ⟨hm1, hm2⟩)]
      by_cases h1 : m ≤ 1
      · rw [if_pos h1]
        rfl
      · rw [if_neg h1, if_pos (le_of_lt (not_le.mp h1))]
        rfl

/-- Witness for C5: an out-of-domain failure and an in-domain success for
each of the three classes. -/
theorem evaluate_domain_check_witness :
    (buildBPL [(0:ℝ)] [(1:ℝ), 2]).eval 3 = .error .outOfDomain ∧
    isOkE ((buildBPL [(0:ℝ)] [(1:ℝ), 2]).eval (3/2)) = true ∧
    lnW.eval 2 = .error .outOfDomain ∧
    isOkE (lnW.eval (1/2)) = true ∧
    chabW.eval 3 = .error .outOfDomain ∧
    isOkE (chabW.eval (1/2)) = true := by
  refine ⟨((evaluate_domain_check.1 [(0:ℝ)] [(1:ℝ), 2] _ mkBPL_012_ok 3).1).mpr
      (Or.inr (by norm_num [List.getD_cons_succ, List.getD_cons_zero])),
    (evaluate_domain_check.1 [(0:ℝ)] [(1:ℝ), 2] _ mkBPL_012_ok (3/2)).2
      (by norm_num [List.getD_cons_zero]) (by norm_num [List.getD_cons_succ, List.getD_cons_zero]),
    ((evaluate_domain_check.2.1 1 1 1 0.01 1 lnW mkLogNormal_W_ok 2).1).mpr
      (Or.inr (by norm_num)),
    (evaluate_domain_check.2.1 1 1 1 0.01 1 lnW mkLogNormal_W_ok (1/2)).2
      (by norm_num) (by norm_num),
    ((evaluate_domain_check.2.2 1 1 1 2 chabW mkChabrierW_ok 3).1).mpr
      (Or.inr (by norm_num)),
    (evaluate_domain_check.2.2 1 1 1 2 chabW mkChabrierW_ok (1/2)).2
      (by norm_num) (by norm_num)⟩
